import Mathlib

/-
  Verification of the yandex-tank streaming aggregation pipeline
  (Poller → Windower → Aggregator → Drain) and of TankCore helpers.

  The pipeline implementation itself (DataPoller, TimeChopper, Aggregator,
  Drain) is not part of the available sources — only its test suite is — so
  those components are modelled from the specification (section 4 of the
  spec).  TankCore.get_plugin_of_type and TankCore.get_option are embedded
  from yandextank/core/tankcore.py.
-/

namespace YandexTank

/-- One request-level measurement: a tag, an integral (truncated to seconds)
timestamp, and a mapping of named numeric fields. -/
structure Sample where
  tag : String
  timestamp : Nat
  fields : List (String × Int)
deriving DecidableEq, Repr

/-- An ordered sequence of Samples delivered together by the source. -/
abbrev Batch := List Sample

/-- Look up a named numeric field of a sample. -/
def Sample.field (s : Sample) (name : String) : Option Int :=
  (s.fields.find? (fun p => p.1 = name)).map Prod.snd

/-- An open bucket: the samples observed so far for one timestamp. -/
abbrev Bucket := List Sample

/-- The open-bucket cache: an association list keyed by timestamp, kept
ordered by timestamp ascending (the spec's "ordered collection ... ordered by
timestamp ascending"). -/
abbrev Cache := List (Nat × Bucket)

/-- The timestamps (keys) of a cache, in cache order. -/
def keysOf (c : Cache) : List Nat := c.map Prod.fst

/-- Modelled from the spec: insertion into the timestamp-ordered open-bucket
cache.  If the timestamp is already open the sample is appended to its
bucket; otherwise a fresh singleton bucket is created at the ordered
position. -/
def cacheInsert (t : Nat) (s : Sample) : Cache → Cache
  | [] => [(t, [s])]
  | (t', b) :: rest =>
    if t < t' then (t, [s]) :: (t', b) :: rest
    else if t = t' then (t', b ++ [s]) :: rest
    else (t', b) :: cacheInsert t s rest

/-- Whether a timestamp currently has an open bucket. -/
def hasKey (t : Nat) (c : Cache) : Bool := (keysOf c).contains t

/-- Modelled from the spec: extract the bucket with the smallest timestamp
from the cache, together with the remaining cache. -/
def popMin : Cache → Option ((Nat × Bucket) × Cache)
  | [] => none
  | p :: rest =>
    match popMin rest with
    | none => some (p, [])
    | some (q, rem) => if p.1 ≤ q.1 then some (p, rest) else some (q, p :: rem)

/-- Windower state: the bounded open-bucket cache plus the largest timestamp
evicted so far (`none` while nothing has been evicted).  A timestamp at or
below the watermark is closed. -/
structure ChopperState where
  cache : Cache
  watermark : Option Nat
deriving DecidableEq, Repr

/-- Whether a timestamp is already closed (its bucket was evicted). -/
def isClosed (w : Option Nat) (t : Nat) : Bool :=
  match w with
  | none => false
  | some w => t ≤ w

/-- Modelled from the spec (TimeChopper is absent from the sources): process
one sample.  A sample for a closed timestamp is dropped with a warning.  A
sample for an open timestamp is appended to its bucket.  A sample for a new
timestamp while the cache is at capacity first evicts the smallest-timestamp
bucket — emitting it downstream and raising the watermark — and only then is
inserted. -/
def chopStep (cacheSize : Nat) (st : ChopperState) (s : Sample) :
    ChopperState × List (Nat × Bucket) :=
  let t := s.timestamp
  if isClosed st.watermark t then (st, [])
  else if hasKey t st.cache then
    ({ st with cache := cacheInsert t s st.cache }, [])
  else if st.cache.length < cacheSize then
    ({ st with cache := cacheInsert t s st.cache }, [])
  else
    match popMin st.cache with
    | none => ({ st with cache := cacheInsert t s st.cache }, [])
    | some ((t0, b0), rest) =>
      ({ cache := cacheInsert t s rest, watermark := some t0 }, [(t0, b0)])

/-- Run the Windower over a sequence of samples, collecting the state and the
evicted buckets in emission order. -/
def chopRun (cacheSize : Nat) (st : ChopperState) :
    List Sample → ChopperState × List (Nat × Bucket)
  | [] => (st, [])
  | s :: rest =>
    let step := chopStep cacheSize st s
    let next := chopRun cacheSize step.1 rest
    (next.1, step.2 ++ next.2)

/-- Modelled from the spec: the final flush — repeatedly evict the
smallest-timestamp bucket until the cache is empty (fuelled by the cache
length, which `popMin` decreases by one each round). -/
def evictFuel : Nat → Cache → List (Nat × Bucket)
  | 0, _ => []
  | n + 1, c =>
    match popMin c with
    | none => []
    | some (p, rem) => p :: evictFuel n rem

/-- Evict every remaining open bucket, smallest timestamp first. -/
def evictAll (c : Cache) : List (Nat × Bucket) := evictFuel c.length c

/-- The empty initial Windower state. -/
def initChopper : ChopperState := ⟨[], none⟩

/-- Modelled from the spec: the TimeChopper (Windower).  Consumes the batch
sequence, splits each batch into samples, buckets them, and emits completed
buckets; on upstream exhaustion all remaining open buckets are flushed. -/
def TimeChopper (cacheSize : Nat) (batches : List Batch) : List (Nat × Bucket) :=
  let run := chopRun cacheSize initChopper batches.flatten
  run.2 ++ evictAll run.1.cache

/-- Modelled from the spec: the DataPoller.  Adapts a source of
batch-or-absent values into a sequence of batches only: absent markers are
consumed internally and never forwarded; the output ends exactly when the
source is exhausted. -/
def DataPoller (source : List (Option Batch)) : List Batch :=
  source.filterMap id

/-- An aggregate function from the declarative aggregation specification:
count, sum, mean, min, max, or a selected percentile. -/
inductive AggFn where
  | count
  | sum
  | mean
  | min
  | max
  | percentile (p : Nat)
deriving DecidableEq, Repr

/-- Sort a list of field values ascending (the deterministic order used for
percentiles, min and max). -/
def sortVals (xs : List Int) : List Int := xs.insertionSort (· ≤ ·)

/-- Nearest-rank index of the `p`-th percentile in a sorted list of length
`n`: the (⌈p·n/100⌉)-th smallest element (1-based), clamped at the bottom. -/
def percentileIdx (n p : Nat) : Nat := (p * n + 99) / 100 - 1

/-- Modelled from the spec: apply one aggregate function to the multiset of
values of a field, presented as a list.  Returns `none` when the statistic is
undefined (empty input, or an out-of-range percentile). -/
def applyAgg (fn : AggFn) (xs : List Int) : Option Int :=
  match fn with
  | .count => some xs.length
  | .sum => some xs.sum
  | .mean => if xs.length = 0 then none else some (xs.sum / (xs.length : Int))
  | .min => (sortVals xs).head?
  | .max => (sortVals xs).getLast?
  | .percentile p => (sortVals xs).get? (percentileIdx xs.length p)

/-- The declarative aggregation specification: each raw field name mapped to
the aggregate functions to compute for it. -/
abbrev AggConfig := List (String × List AggFn)

/-- Modelled from the spec: the statistics of one tag inside a bucket — for
each configured field, the list of aggregate results. -/
def aggregateTag (config : AggConfig) (samples : List Sample) :
    List (String × List (Option Int)) :=
  config.map fun fieldSpec =>
    (fieldSpec.1,
      fieldSpec.2.map fun fn =>
        applyAgg fn (samples.filterMap (fun s => s.field fieldSpec.1)))

/-- The output of reducing one evicted bucket: its timestamp and the per-tag
statistical results, tags listed in ascending order. -/
structure AggregatedRecord where
  timestamp : Nat
  tags : List (String × List (String × List (Option Int)))
deriving DecidableEq, Repr

/-- Modelled from the spec: reduce one completed bucket into exactly one
AggregatedRecord, grouping the bucket's samples by tag. -/
def aggregateBucket (config : AggConfig) (t : Nat) (b : Bucket) : AggregatedRecord :=
  { timestamp := t
    tags := ((b.map Sample.tag).dedup.insertionSort (· ≤ ·)).map fun tag =>
      (tag, aggregateTag config (b.filter (fun s => s.tag = tag))) }

/-- Modelled from the spec: the Aggregator stage, one record per completed
bucket, in bucket order. -/
def Aggregator (config : AggConfig) (buckets : List (Nat × Bucket)) :
    List AggregatedRecord :=
  buckets.map fun p => aggregateBucket config p.1 p.2

/-- The composed Poller → Windower → Aggregator pipeline on a finite source. -/
def pipelineRun (config : AggConfig) (cacheSize : Nat)
    (source : List (Option Batch)) : List AggregatedRecord :=
  Aggregator config (TimeChopper cacheSize (DataPoller source))

/-- A message observable on the consumer side of the Drain's output queue. -/
inductive DrainMsg where
  | record (r : AggregatedRecord)
  | endOfStream
  | failure (e : String)
deriving DecidableEq, Repr

/-- Whether a queue message carries an aggregated record. -/
def DrainMsg.isRecord : DrainMsg → Bool
  | .record _ => true
  | _ => false

/-- Modelled from the spec: the Drain runs the composed pipeline to
exhaustion, forwarding each record onto the queue; it signals clean
completion with an end-of-stream sentinel, and if any stage raises, the
exception is captured and surfaced onto the queue instead. The pipeline's
execution is presented as the sequence of its step outcomes, each either a
produced record or a raised exception. -/
def Drain : List (Except String AggregatedRecord) → List DrainMsg
  | [] => [.endOfStream]
  | .ok r :: rest => .record r :: Drain rest
  | .error e :: _ => [.failure e]

/-- The timestamp displacement of each arriving sample, measured in distinct
bucket timestamps: a sample is within tolerance when fewer than `cacheSize`
distinct strictly larger timestamps were delivered before it.  `seen` is the
list of timestamps already delivered. -/
def dispOK (cacheSize : Nat) (seen : List Nat) : List Sample → Bool
  | [] => true
  | s :: rest =>
    decide ((seen.dedup.filter (fun u => s.timestamp < u)).length < cacheSize)
      && dispOK cacheSize (seen ++ [s.timestamp]) rest

/-- A batch sequence is within the reorder tolerance when every sample of its
flattened sample stream is displaced by at most `cacheSize - 1` distinct
timestamps. -/
def withinTolerance (cacheSize : Nat) (batches : List Batch) : Bool :=
  dispOK cacheSize [] batches.flatten

/-- The bucket a sample stream owes to a timestamp: all its samples with that
timestamp, in arrival order. -/
def bucketOf (processed : List Sample) (t : Nat) : Bucket :=
  processed.filter (fun s => s.timestamp = t)

/-- A cache is sorted when its timestamps are pairwise strictly increasing in
list order. -/
def SortedCache (c : Cache) : Prop := (keysOf c).Pairwise (· < ·)

/-- The invariant tying a Windower state and its emissions so far to the
samples already processed: the cache is sorted and bounded, emissions are
strictly ascending and below the watermark, open buckets sit strictly above
the watermark, every processed timestamp is accounted for exactly once, and
each bucket holds exactly its timestamp's samples. -/
structure ChopInv (cs : Nat) (processed : List Sample) (st : ChopperState)
    (out : List (Nat × Bucket)) : Prop where
  sc : SortedCache st.cache
  so : (keysOf out).Pairwise (· < ·)
  wmNone : st.watermark = none → out = []
  wmOutLe : ∀ u ∈ keysOf out, ∀ w, st.watermark = some w → u ≤ w
  wmCacheGt : ∀ u ∈ keysOf st.cache, ∀ w, st.watermark = some w → w < u
  memEq : ∀ u, (u ∈ keysOf out ∨ u ∈ keysOf st.cache)
      ↔ u ∈ processed.map Sample.timestamp
  buckets : ∀ p ∈ out ++ st.cache, p.2 = bucketOf processed p.1
  lenLe : st.cache.length ≤ cs
  capFull : ∀ w, st.watermark = some w → st.cache.length = cs

end YandexTank

namespace TankCore

/-- A configuration option store: sections, each holding (option, value)
pairs; `flushCount` counts the writes of the store to its backing file. -/
structure ConfigStore where
  sections : List (String × List (String × String))
  flushCount : Nat
deriving DecidableEq, Repr

/-- Whether the store has a section (ConfigParser.has_section). -/
def hasSection (cfg : ConfigStore) (sec : String) : Bool :=
  cfg.sections.any (fun p => p.1 = sec)

/-- Add an empty section (ConfigParser.add_section). -/
def addSection (cfg : ConfigStore) (sec : String) : ConfigStore :=
  { cfg with sections := cfg.sections ++ [(sec, [])] }

/-- `self.config.config.get(section, option)`: the stored raw value, if any. -/
def getRaw (cfg : ConfigStore) (sec opt : String) : Option String :=
  match cfg.sections.find? (fun p => p.1 = sec) with
  | none => none
  | some p => (p.2.find? (fun q => q.1 = opt)).map Prod.snd

/-- `self.config.config.set(section, option, value)`: store a value. -/
def setRaw (cfg : ConfigStore) (sec opt value : String) : ConfigStore :=
  { cfg with
    sections := cfg.sections.map fun p =>
      if p.1 = sec then (p.1, (p.2.filter (fun q => q.1 ≠ opt)) ++ [(opt, value)])
      else p }

/-- `self.config.flush()`: write the store to its backing file. -/
def flush (cfg : ConfigStore) : ConfigStore :=
  { cfg with flushCount := cfg.flushCount + 1 }

/-- The section-adding preamble of TankCore.get_option: `has_section` check
followed by `add_section` when missing. -/
def ensureSection (cfg : ConfigStore) (sec : String) : ConfigStore :=
  if hasSection cfg sec then cfg else addSection cfg sec

/-- Outcome of running a shell command via `execute(cmd, ..., catch_out=True)`:
return code, captured stdout and captured stderr. -/
structure ShellResult where
  retcode : Nat
  stdout : String
  stderr : String
deriving DecidableEq, Repr

/-- The whitespace characters removed by Python str.strip(). -/
def isPySpace (c : Char) : Bool :=
  c == ' ' || c == '\t' || c == '\n' || c == '\r' || c == '\x0b' || c == '\x0c'

/-- Python str.strip(): the string without leading and trailing whitespace. -/
def pyStrip (s : String) : String :=
  ⟨((s.data.dropWhile isPySpace).reverse.dropWhile isPySpace).reverse⟩

/-- The backquote character (code point 96). -/
def backquote : Char := Char.ofNat 96

/-- The backquote test of tankcore.py line 368: the value has length above
one and both its first and last characters are backquotes. -/
def shellQuoted (v : String) : Bool :=
  decide (v.data.length > 1) && decide (v.data.head? = some backquote)
    && decide (v.data.getLast? = some backquote)

/-- The command between the backquotes: value[1:-1]. -/
def stripQuotes (v : String) : String := ⟨(v.data.drop 1).dropLast⟩

/-- The shell-expansion epilogue of TankCore.get_option (tankcore.py lines
368–374): a value wrapped in backquotes is executed as a shell command — the
subprocess behavior is supplied as the oracle `shell` — and replaced by the
command's stripped stdout; a non-zero return code or any stderr output raises
ValueError.  A value not wrapped in backquotes is returned as is. -/
def expandShell (shell : String → ShellResult) (value : String) :
    Except String String :=
  if shellQuoted value then
    let res := shell (stripQuotes value)
    if res.retcode = 0 ∧ res.stderr = "" then .ok (pyStrip res.stdout)
    else .error "ValueError"
  else .ok value

/-- Embeds TankCore.get_option (tankcore.py lines 346–376): ensure the
section exists, read the option stripped of whitespace; on a missing option
either store-and-flush the stringified default and use it stripped, or raise
NoOptionError when no default was supplied; finally a backquote-wrapped value
is shell-expanded via the `shell` oracle (the `execute` call).  The mutated
store is returned alongside the outcome. -/
def get_option (shell : String → ShellResult) (cfg : ConfigStore)
    (sec opt : String) (default : Option String) :
    Except String String × ConfigStore :=
  let cfg1 := ensureSection cfg sec
  match getRaw cfg1 sec opt with
  | some v => (expandShell shell (pyStrip v), cfg1)
  | none =>
    match default with
    | some d => (expandShell shell (pyStrip d), flush (setRaw cfg1 sec opt d))
    | none => (.error "NoOptionError", cfg1)

/-- Embeds TankCore.get_plugin_of_type (tankcore.py lines 387–403): filter
the loaded plugins by an isinstance test and return `matches[-1]`, raising
KeyError (`none`) when there is no match. -/
def get_plugin_of_type {α : Type} (plugins : List α) (isInst : α → Bool) :
    Option α :=
  let found := plugins.filter isInst
  if found.length > 0 then found.getLast? else none

end TankCore

namespace YandexTank

theorem bucketOf_append (processed : List Sample) (s : Sample) (t : Nat) :
    bucketOf (processed ++ [s]) t
      = bucketOf processed t ++ (if s.timestamp = t then [s] else []) := by
  simp [bucketOf, List.filter_append]
  split <;> simp_all

theorem bucketOf_eq_nil (processed : List Sample) (t : Nat)
    (h : t ∉ processed.map Sample.timestamp) : bucketOf processed t = [] := by
  rw [bucketOf, List.filter_eq_nil_iff]
  intro a ha
  simp only [decide_eq_true_eq]
  intro hts
  exact h (by simpa [hts] using List.mem_map_of_mem Sample.timestamp ha)

theorem hasKey_iff (t : Nat) (c : Cache) : hasKey t c = true ↔ t ∈ keysOf c := by
  simp [hasKey]

theorem keysOf_cons (p : Nat × Bucket) (c : Cache) :
    keysOf (p :: c) = p.1 :: keysOf c := rfl

theorem mem_keysOf_cacheInsert (u t : Nat) (s : Sample) (c : Cache) :
    u ∈ keysOf (cacheInsert t s c) ↔ u = t ∨ u ∈ keysOf c := by
  induction c with
  | nil => simp [cacheInsert, keysOf]
  | cons p rest ih =>
    obtain ⟨t', b⟩ := p
    by_cases h1 : t < t'
    · simp [cacheInsert, h1, keysOf]
    · by_cases h2 : t = t'
      · subst h2
        have hceq : cacheInsert t s ((t, b) :: rest) = (t, b ++ [s]) :: rest := by
          simp [cacheInsert, h1]
        rw [hceq]
        simp only [keysOf, List.map_cons, List.mem_cons]
        tauto
      · simp only [cacheInsert, if_neg h1, if_neg h2, keysOf, List.map_cons,
          List.mem_cons] at ih ⊢
        rw [ih]
        tauto

theorem sortedCache_cacheInsert (t : Nat) (s : Sample) (c : Cache)
    (h : SortedCache c) : SortedCache (cacheInsert t s c) := by
  induction c with
  | nil => simp [SortedCache, cacheInsert, keysOf]
  | cons p rest ih =>
    obtain ⟨t', b⟩ := p
    simp only [SortedCache, keysOf, List.map_cons, List.pairwise_cons] at h
    by_cases h1 : t < t'
    · simp only [SortedCache, cacheInsert, if_pos h1, keysOf, List.map_cons,
        List.pairwise_cons]
      refine ⟨?_, h⟩
      intro u hu
      rcases List.mem_cons.mp hu with rfl | hu
      · exact h1
      · exact h1.trans (h.1 u hu)
    · by_cases h2 : t = t'
      · subst h2
        simpa [SortedCache, cacheInsert, if_neg h1, keysOf] using h
      · have h3 : t' < t := by omega
        simp only [SortedCache, cacheInsert, if_neg h1, if_neg h2, keysOf,
          List.map_cons, List.pairwise_cons]
        constructor
        · intro u hu
          rcases (mem_keysOf_cacheInsert u t s rest).mp hu with rfl | hu
          · exact h3
          · exact h.1 u hu
        · exact ih h.2

theorem length_cacheInsert_of_mem (t : Nat) (s : Sample) (c : Cache)
    (hs : SortedCache c) (h : t ∈ keysOf c) :
    (cacheInsert t s c).length = c.length := by
  induction c with
  | nil => simp [keysOf] at h
  | cons p rest ih =>
    obtain ⟨t', b⟩ := p
    simp only [keysOf, List.map_cons, List.mem_cons] at h
    simp only [SortedCache, keysOf, List.map_cons, List.pairwise_cons] at hs
    by_cases h2 : t = t'
    · subst h2
      simp [cacheInsert, if_neg (lt_irrefl t)]
    · have hmem : t ∈ keysOf rest := h.resolve_left h2
      have h3 : t' < t := hs.1 t hmem
      have h1 : ¬ t < t' := by omega
      simp [cacheInsert, if_neg h1, if_neg h2, ih hs.2 hmem]

theorem length_cacheInsert_of_not_mem (t : Nat) (s : Sample) (c : Cache)
    (h : t ∉ keysOf c) : (cacheInsert t s c).length = c.length + 1 := by
  induction c with
  | nil => simp [cacheInsert]
  | cons p rest ih =>
    obtain ⟨t', b⟩ := p
    simp only [keysOf, List.map_cons, List.mem_cons] at h
    push_neg at h
    by_cases h1 : t < t'
    · simp [cacheInsert, if_pos h1]
    · simp [cacheInsert, if_neg h1, if_neg h.1, ih h.2]

theorem buckets_cacheInsert (t : Nat) (s : Sample) (c : Cache)
    (processed : List Sample) (hts : s.timestamp = t) (hs : SortedCache c)
    (hb : ∀ p ∈ c, p.2 = bucketOf processed p.1)
    (hnew : t ∉ keysOf c → bucketOf processed t = []) :
    ∀ p ∈ cacheInsert t s c, p.2 = bucketOf (processed ++ [s]) p.1 := by
  induction c with
  | nil =>
    intro p hp
    simp only [cacheInsert, List.mem_singleton] at hp
    subst hp
    simp [bucketOf_append, hts, hnew (by simp [keysOf])]
  | cons q rest ih =>
    obtain ⟨t', b⟩ := q
    simp only [SortedCache, keysOf, List.map_cons, List.pairwise_cons] at hs
    intro p hp
    by_cases h1 : t < t'
    · simp only [cacheInsert, if_pos h1, List.mem_cons] at hp
      have hnotin : t ∉ keysOf ((t', b) :: rest) := by
        simp only [keysOf, List.map_cons, List.mem_cons]
        push_neg
        refine ⟨by omega, fun hmem => ?_⟩
        exact absurd (hs.1 t hmem) (by omega)
      rcases hp with rfl | hp
      · show [s] = bucketOf (processed ++ [s]) t
        rw [bucketOf_append, hnew hnotin, if_pos hts, List.nil_append]
      · have hbp := hb p (List.mem_cons.mpr hp)
        have hne : s.timestamp ≠ p.1 := by
          rcases hp with rfl | hp'
          · show s.timestamp ≠ t'
            omega
          · have : t' < p.1 := hs.1 p.1 (List.mem_map_of_mem Prod.fst hp')
            omega
        rw [hbp, bucketOf_append, if_neg hne, List.append_nil]
    · by_cases h2 : t = t'
      · subst h2
        have hceq : cacheInsert t s ((t, b) :: rest) = (t, b ++ [s]) :: rest := by
          simp [cacheInsert, h1]
        rw [hceq] at hp
        rcases List.mem_cons.mp hp with rfl | hp
        · have hbhead : b = bucketOf processed t := hb (t, b) (List.mem_cons_self _ _)
          show b ++ [s] = bucketOf (processed ++ [s]) t
          rw [bucketOf_append, if_pos hts, ← hbhead]
        · have hbp := hb p (List.mem_cons_of_mem _ hp)
          have hne : s.timestamp ≠ p.1 := by
            have : t < p.1 := hs.1 p.1 (List.mem_map_of_mem Prod.fst hp)
            omega
          rw [hbp, bucketOf_append, if_neg hne, List.append_nil]
      · simp only [cacheInsert, if_neg h1, if_neg h2, List.mem_cons] at hp
        rcases hp with rfl | hp
        · have hbhead : b = bucketOf processed t' := hb (t', b) (List.mem_cons_self _ _)
          show b = bucketOf (processed ++ [s]) t'
          rw [bucketOf_append, if_neg (by rw [hts]; exact h2), List.append_nil,
            ← hbhead]
        · refine ih hs.2 (fun q hq => hb q (List.mem_cons_of_mem _ hq)) ?_ p hp
          intro hnr
          refine hnew ?_
          simp only [keysOf, List.map_cons, List.mem_cons]
          push_neg
          exact ⟨h2, hnr⟩

theorem popMin_eq_none (c : Cache) : popMin c = none ↔ c = [] := by
  cases c with
  | nil => simp [popMin]
  | cons p rest =>
    simp only [popMin]
    cases popMin rest with
    | none => simp
    | some q => obtain ⟨q1, q2⟩ := q; by_cases h : p.1 ≤ q1.1 <;> simp [h]

theorem popMin_perm (c : Cache) :
    ∀ p rem, popMin c = some (p, rem) → c.Perm (p :: rem) := by
  induction c with
  | nil => intro p rem h; simp [popMin] at h
  | cons q rest ih =>
    intro p rem h
    cases hrec : popMin rest with
    | none =>
      have hc : popMin (q :: rest) = some (q, []) := by
        rw [popMin, hrec]
      rw [hc] at h
      simp only [Option.some.injEq, Prod.mk.injEq] at h
      obtain ⟨rfl, rfl⟩ := h
      rw [(popMin_eq_none rest).mp hrec]
    | some qq =>
      obtain ⟨q1, rem1⟩ := qq
      by_cases hle : q.1 ≤ q1.1
      · have hc : popMin (q :: rest) = some (q, rest) := by
          rw [popMin, hrec]
          dsimp only
          rw [if_pos hle]
        rw [hc] at h
        simp only [Option.some.injEq, Prod.mk.injEq] at h
        obtain ⟨rfl, rfl⟩ := h
        exact List.Perm.refl _
      · have hc : popMin (q :: rest) = some (q1, q :: rem1) := by
          rw [popMin, hrec]
          dsimp only
          rw [if_neg hle]
        rw [hc] at h
        simp only [Option.some.injEq, Prod.mk.injEq] at h
        obtain ⟨rfl, rfl⟩ := h
        exact ((ih q1 rem1 hrec).cons q).trans (List.Perm.swap _ _ _)

theorem popMin_sorted (p : Nat × Bucket) (rest : Cache)
    (hs : SortedCache (p :: rest)) : popMin (p :: rest) = some (p, rest) := by
  induction rest generalizing p with
  | nil => simp [popMin]
  | cons q rest' ih =>
    simp only [SortedCache, keysOf, List.map_cons, List.pairwise_cons] at hs
    have hq : popMin (q :: rest') = some (q, rest') := by
      apply ih
      simp only [SortedCache, keysOf, List.map_cons, List.pairwise_cons]
      exact hs.2
    rw [popMin, hq]
    dsimp only
    rw [if_pos (le_of_lt (hs.1 q.1 (List.mem_cons_self _ _)))]

theorem evictFuel_sorted (n : Nat) (c : Cache) (hs : SortedCache c)
    (hn : c.length ≤ n) : evictFuel n c = c := by
  induction n generalizing c with
  | zero =>
    rw [Nat.le_zero, List.length_eq_zero] at hn
    subst hn
    rfl
  | succ n ih =>
    cases c with
    | nil => simp [evictFuel, popMin]
    | cons p rest =>
      rw [evictFuel, popMin_sorted p rest hs]
      have hrest : SortedCache rest := by
        simp only [SortedCache, keysOf, List.map_cons, List.pairwise_cons] at hs
        exact hs.2
      dsimp only
      rw [ih rest hrest (by simpa using hn)]

theorem evictAll_sorted (c : Cache) (hs : SortedCache c) : evictAll c = c :=
  evictFuel_sorted c.length c hs (le_refl _)

theorem evictFuel_perm (n : Nat) (c : Cache) (hn : c.length ≤ n) :
    (evictFuel n c).Perm c := by
  induction n generalizing c with
  | zero =>
    rw [Nat.le_zero, List.length_eq_zero] at hn
    subst hn
    exact List.Perm.refl _
  | succ n ih =>
    cases hc : popMin c with
    | none =>
      rw [(popMin_eq_none c).mp hc]
      simp [evictFuel, popMin]
    | some pr =>
      obtain ⟨p, rem⟩ := pr
      rw [evictFuel, hc]
      have hperm := popMin_perm c p rem hc
      have hlen : rem.length + 1 = c.length := by
        have := hperm.length_eq
        simpa using this.symm
      exact ((ih rem (by omega)).cons p).trans hperm.symm

/-- The final flush emits exactly the open buckets (as a permutation): no
buffered bucket is discarded. -/
theorem evictAll_perm (c : Cache) : (evictAll c).Perm c :=
  evictFuel_perm c.length c (le_refl _)

theorem isClosed_false_iff (w : Option Nat) (t : Nat) :
    isClosed w t = false ↔ ∀ x, w = some x → x < t := by
  cases w with
  | none => simp [isClosed]
  | some x =>
    simp only [isClosed, decide_eq_false_iff_not, not_le, Option.some.injEq]
    constructor
    · rintro h y rfl; exact h
    · intro h; exact h x rfl

theorem isClosed_true_iff (w : Option Nat) (t : Nat) :
    isClosed w t = true ↔ ∃ x, w = some x ∧ t ≤ x := by
  cases w with
  | none => simp [isClosed]
  | some x => simp [isClosed]

theorem nodup_length_le {l1 l2 : List Nat} (h1 : l1.Nodup)
    (hsub : ∀ u ∈ l1, u ∈ l2) (h2 : l2.Nodup) : l1.length ≤ l2.length := by
  classical
  have hss : l1.toFinset ⊆ l2.toFinset := by
    intro x hx
    rw [List.mem_toFinset] at hx ⊢
    exact hsub x hx
  calc l1.length = l1.toFinset.card := (List.toFinset_card_of_nodup h1).symm
    _ ≤ l2.toFinset.card := Finset.card_le_card hss
    _ = l2.length := List.toFinset_card_of_nodup h2

theorem chopInv_init (cs : Nat) : ChopInv cs [] initChopper [] := by
  refine ⟨?_, ?_, ?_, ?_, ?_, ?_, ?_, ?_, ?_⟩ <;>
    simp [initChopper, SortedCache, keysOf]

theorem chopInv_cache_nodup {cs processed st out}
    (hinv : ChopInv cs processed st out) : (keysOf st.cache).Nodup :=
  hinv.sc.imp (fun h => Nat.ne_of_lt h)

/-- Under the invariant, if every open timestamp is strictly above `x`, the
cache size is bounded by the number of distinct processed timestamps
above `x`. -/
theorem chopInv_count (cs : Nat) (processed : List Sample) (st : ChopperState)
    (out : List (Nat × Bucket)) (hinv : ChopInv cs processed st out) (x : Nat)
    (hall : ∀ u ∈ keysOf st.cache, x < u) :
    st.cache.length ≤
      ((processed.map Sample.timestamp).dedup.filter (fun u => x < u)).length := by
  have hkeys : (keysOf st.cache).length = st.cache.length := by
    simp [keysOf]
  rw [← hkeys]
  refine nodup_length_le (chopInv_cache_nodup hinv) ?_
    (List.Nodup.filter _ (List.nodup_dedup _))
  intro u hu
  rw [List.mem_filter]
  refine ⟨List.mem_dedup.mpr ((hinv.memEq u).mp (Or.inr hu)), ?_⟩
  simpa using hall u hu

theorem keysOf_append (l1 l2 : Cache) :
    keysOf (l1 ++ l2) = keysOf l1 ++ keysOf l2 := by
  simp [keysOf]

theorem chopStep_closed (cs : Nat) (st : ChopperState) (s : Sample)
    (h : isClosed st.watermark s.timestamp = true) :
    chopStep cs st s = (st, []) := by
  simp [chopStep, h]

theorem chopStep_open (cs : Nat) (st : ChopperState) (s : Sample)
    (h1 : isClosed st.watermark s.timestamp = false)
    (h2 : hasKey s.timestamp st.cache = true) :
    chopStep cs st s
      = ({ st with cache := cacheInsert s.timestamp s st.cache }, []) := by
  simp [chopStep, h1, h2]

theorem chopStep_room (cs : Nat) (st : ChopperState) (s : Sample)
    (h1 : isClosed st.watermark s.timestamp = false)
    (h2 : hasKey s.timestamp st.cache = false)
    (h3 : st.cache.length < cs) :
    chopStep cs st s
      = ({ st with cache := cacheInsert s.timestamp s st.cache }, []) := by
  simp [chopStep, h1, h2, h3]

theorem chopStep_evict (cs : Nat) (st : ChopperState) (s : Sample)
    (t0 : Nat) (b0 : Bucket) (rest : Cache)
    (h1 : isClosed st.watermark s.timestamp = false)
    (h2 : hasKey s.timestamp st.cache = false)
    (h3 : ¬ st.cache.length < cs)
    (h4 : popMin st.cache = some ((t0, b0), rest)) :
    chopStep cs st s
      = (⟨cacheInsert s.timestamp s rest, some t0⟩, [(t0, b0)]) := by
  simp [chopStep, h1, h2, h3, h4]

theorem chopStep_inv (cs : Nat) (processed : List Sample) (st : ChopperState)
    (out : List (Nat × Bucket)) (s : Sample)
    (hinv : ChopInv cs processed st out)
    (hd : ((processed.map Sample.timestamp).dedup.filter
        (fun u => s.timestamp < u)).length < cs) :
    ChopInv cs (processed ++ [s]) (chopStep cs st s).1
      (out ++ (chopStep cs st s).2) := by
  have hmapapp : (processed ++ [s]).map Sample.timestamp
      = processed.map Sample.timestamp ++ [s.timestamp] := by simp
  cases hcl : isClosed st.watermark s.timestamp with
  | true =>
    exfalso
    obtain ⟨w, hw, htw⟩ := (isClosed_true_iff _ _).mp hcl
    have hlen := hinv.capFull w hw
    have hcount := chopInv_count cs processed st out hinv s.timestamp
      (fun u hu => lt_of_le_of_lt htw (hinv.wmCacheGt u hu w hw))
    omega
  | false =>
    have hwlt : ∀ w, st.watermark = some w → w < s.timestamp :=
      (isClosed_false_iff _ _).mp hcl
    have houtKeysLt : ∀ u ∈ keysOf out, u < s.timestamp := by
      intro u hu
      cases hwm : st.watermark with
      | none =>
        rw [hinv.wmNone hwm] at hu
        cases hu
      | some w => exact lt_of_le_of_lt (hinv.wmOutLe u hu w hwm) (hwlt w hwm)
    have houtne : ∀ p ∈ out, p.2 = bucketOf (processed ++ [s]) p.1 := by
      intro p hp
      have hb := hinv.buckets p (List.mem_append_left _ hp)
      rw [hb, bucketOf_append, if_neg ?hne, List.append_nil]
      case hne =>
        have := houtKeysLt p.1 (List.mem_map_of_mem Prod.fst hp)
        omega
    have hempty : s.timestamp ∉ keysOf st.cache
        → bucketOf processed s.timestamp = [] := by
      intro hk
      refine bucketOf_eq_nil _ _ (fun hmem => ?_)
      rcases (hinv.memEq _).mpr hmem with ho | hc
      · exact absurd (houtKeysLt _ ho) (lt_irrefl _)
      · exact hk hc
    cases hk : hasKey s.timestamp st.cache with
    | true =>
      have htk : s.timestamp ∈ keysOf st.cache := (hasKey_iff _ _).mp hk
      rw [chopStep_open cs st s hcl hk]
      refine ⟨?_, ?_, ?_, ?_, ?_, ?_, ?_, ?_, ?_⟩
      · exact sortedCache_cacheInsert _ _ _ hinv.sc
      · simpa using hinv.so
      · intro h
        simpa using hinv.wmNone h
      · simpa using hinv.wmOutLe
      · intro u hu w hw
        rcases (mem_keysOf_cacheInsert u _ s _).mp hu with rfl | hu2
        · exact hwlt w hw
        · exact hinv.wmCacheGt u hu2 w hw
      · intro u
        have h1 := hinv.memEq u
        have h2 := (hinv.memEq s.timestamp).mp (Or.inr htk)
        rw [hmapapp]
        simp only [List.append_nil, List.mem_append, List.mem_singleton,
          mem_keysOf_cacheInsert]
        tauto
      · intro p hp
        simp only [List.append_nil] at hp
        rcases List.mem_append.mp hp with hpo | hpc
        · exact houtne p hpo
        · exact buckets_cacheInsert _ s _ processed rfl hinv.sc
            (fun q hq => hinv.buckets q (List.mem_append_right _ hq))
            (fun hn => absurd htk hn) p hpc
      · show (cacheInsert s.timestamp s st.cache).length ≤ cs
        rw [length_cacheInsert_of_mem _ _ _ hinv.sc htk]
        exact hinv.lenLe
      · intro w hw
        show (cacheInsert s.timestamp s st.cache).length = cs
        rw [length_cacheInsert_of_mem _ _ _ hinv.sc htk]
        exact hinv.capFull w hw
    | false =>
      have hknot : s.timestamp ∉ keysOf st.cache := by
        intro hmem
        rw [← hasKey_iff] at hmem
        rw [hk] at hmem
        cases hmem
      by_cases hlt : st.cache.length < cs
      · rw [chopStep_room cs st s hcl hk hlt]
        refine ⟨?_, ?_, ?_, ?_, ?_, ?_, ?_, ?_, ?_⟩
        · exact sortedCache_cacheInsert _ _ _ hinv.sc
        · simpa using hinv.so
        · intro h
          simpa using hinv.wmNone h
        · simpa using hinv.wmOutLe
        · intro u hu w hw
          rcases (mem_keysOf_cacheInsert u _ s _).mp hu with rfl | hu2
          · exact hwlt w hw
          · exact hinv.wmCacheGt u hu2 w hw
        · intro u
          have h1 := hinv.memEq u
          rw [hmapapp]
          simp only [List.append_nil, List.mem_append, List.mem_singleton,
            mem_keysOf_cacheInsert]
          tauto
        · intro p hp
          simp only [List.append_nil] at hp
          rcases List.mem_append.mp hp with hpo | hpc
          · exact houtne p hpo
          · exact buckets_cacheInsert _ s _ processed rfl hinv.sc
              (fun q hq => hinv.buckets q (List.mem_append_right _ hq))
              (fun _ => hempty hknot) p hpc
        · show (cacheInsert s.timestamp s st.cache).length ≤ cs
          rw [length_cacheInsert_of_not_mem _ _ _ hknot]
          omega
        · intro w hw
          have := hinv.capFull w hw
          omega
      · have hlen : st.cache.length = cs := le_antisymm hinv.lenLe (not_lt.mp hlt)
        have hcs1 : 1 ≤ cs := by omega
        cases hc : st.cache with
        | nil =>
          exfalso
          rw [hc] at hlen
          simp at hlen
          omega
        | cons phead rest =>
          obtain ⟨t0, b0⟩ := phead
          have hsc' : SortedCache ((t0, b0) :: rest) := hc ▸ hinv.sc
          have hpop : popMin st.cache = some ((t0, b0), rest) := by
            rw [hc]
            exact popMin_sorted _ _ hsc'
          have hkeysc : keysOf st.cache = t0 :: keysOf rest := by
            rw [hc]
            rfl
          have ht0rest : ∀ u ∈ keysOf rest, t0 < u := by
            have := hsc'
            simp only [SortedCache, keysOf, List.map_cons, List.pairwise_cons] at this
            exact this.1
          have hsrest : SortedCache rest := by
            have := hsc'
            simp only [SortedCache, keysOf, List.map_cons, List.pairwise_cons] at this
            exact this.2
          have ht0mem : t0 ∈ keysOf st.cache := by
            rw [hkeysc]
            exact List.mem_cons_self _ _
          have ht0t : t0 < s.timestamp := by
            by_contra hcon
            have htlt : ∀ u ∈ keysOf st.cache, s.timestamp < u := by
              intro u hu
              rw [hkeysc] at hu
              have hne : s.timestamp ≠ t0 := by
                intro h
                exact hknot (h ▸ ht0mem)
              rcases List.mem_cons.mp hu with rfl | hu2
              · omega
              · have := ht0rest u hu2
                omega
            have hcount := chopInv_count cs processed st out hinv s.timestamp htlt
            omega
          have houtLtT0 : ∀ u ∈ keysOf out, u < t0 := by
            intro u hu
            cases hwm : st.watermark with
            | none =>
              rw [hinv.wmNone hwm] at hu
              cases hu
            | some w =>
              exact lt_of_le_of_lt (hinv.wmOutLe u hu w hwm)
                (hinv.wmCacheGt t0 ht0mem w hwm)
          have htnotrest : s.timestamp ∉ keysOf rest := by
            intro h
            exact hknot (by rw [hkeysc]; exact List.mem_cons_of_mem _ h)
          rw [chopStep_evict cs st s t0 b0 rest hcl hk hlt hpop]
          refine ⟨?_, ?_, ?_, ?_, ?_, ?_, ?_, ?_, ?_⟩
          · exact sortedCache_cacheInsert _ _ _ hsrest
          · rw [show (out ++ [(t0, b0)]) = out ++ [(t0, b0)] from rfl,
              keysOf_append]
            rw [List.pairwise_append]
            refine ⟨hinv.so, by simp [keysOf], ?_⟩
            intro x hx y hy
            simp only [keysOf, List.map_cons, List.map_nil,
              List.mem_singleton] at hy
            subst hy
            exact houtLtT0 x hx
          · intro h
            cases h
          · intro u hu w hw
            have hwt0 : w = t0 := by
              cases hw
              rfl
            subst hwt0
            rw [keysOf_append] at hu
            rcases List.mem_append.mp hu with hu1 | hu2
            · exact le_of_lt (houtLtT0 u hu1)
            · simp only [keysOf, List.map_cons, List.map_nil,
                List.mem_singleton] at hu2
              omega
          · intro u hu w hw
            have hwt0 : w = t0 := by
              cases hw
              rfl
            subst hwt0
            rcases (mem_keysOf_cacheInsert u _ s _).mp hu with rfl | hu2
            · exact ht0t
            · exact ht0rest u hu2
          · intro u
            have h1 := hinv.memEq u
            rw [hkeysc] at h1
            simp only [List.mem_cons] at h1
            rw [hmapapp, keysOf_append,
              show keysOf [(t0, b0)] = [t0] from rfl,
              mem_keysOf_cacheInsert u s.timestamp s rest]
            simp only [List.mem_append, List.mem_singleton]
            tauto
          · intro p hp
            rcases List.mem_append.mp hp with hp1 | hp2
            · rcases List.mem_append.mp hp1 with hpo | hpb
              · exact houtne p hpo
              · have hpeq : p = (t0, b0) := List.mem_singleton.mp hpb
                subst hpeq
                have hb0 : b0 = bucketOf processed t0 := by
                  have := hinv.buckets (t0, b0)
                    (List.mem_append_right _ (by rw [hc]; exact List.mem_cons_self _ _))
                  exact this
                show b0 = bucketOf (processed ++ [s]) t0
                rw [bucketOf_append, if_neg (by omega), List.append_nil, ← hb0]
            · exact buckets_cacheInsert _ s _ processed rfl hsrest
                (fun q hq => hinv.buckets q
                  (List.mem_append_right _ (by rw [hc]; exact List.mem_cons_of_mem _ hq)))
                (fun _ => hempty hknot) p hp2
          · show (cacheInsert s.timestamp s rest).length ≤ cs
            rw [length_cacheInsert_of_not_mem _ _ _ htnotrest]
            rw [hc] at hlen
            simp at hlen
            omega
          · intro w hw
            show (cacheInsert s.timestamp s rest).length = cs
            rw [length_cacheInsert_of_not_mem _ _ _ htnotrest]
            rw [hc] at hlen
            simp at hlen
            omega

theorem chopRun_inv (cs : Nat) (remaining : List Sample) :
    ∀ (processed : List Sample) (st : ChopperState) (out : List (Nat × Bucket)),
    ChopInv cs processed st out →
    dispOK cs (processed.map Sample.timestamp) remaining = true →
    ChopInv cs (processed ++ remaining) (chopRun cs st remaining).1
      (out ++ (chopRun cs st remaining).2) := by
  induction remaining with
  | nil =>
    intro processed st out hinv _
    simpa [chopRun] using hinv
  | cons s rest ih =>
    intro processed st out hinv hdisp
    simp only [dispOK, Bool.and_eq_true, decide_eq_true_eq] at hdisp
    have hstep := chopStep_inv cs processed st out s hinv hdisp.1
    have hd2 : dispOK cs ((processed ++ [s]).map Sample.timestamp) rest = true := by
      rw [List.map_append]
      exact hdisp.2
    have hrec := ih (processed ++ [s]) (chopStep cs st s).1
      (out ++ (chopStep cs st s).2) hstep hd2
    simp only [chopRun]
    simpa [List.append_assoc] using hrec

/-- Complete characterization of the Windower within tolerance: emission keys
are strictly ascending, are exactly the distinct input timestamps, and each
emitted bucket holds exactly its timestamp's samples in arrival order. -/
theorem chopper_spec (cs : Nat) (batches : List Batch)
    (h : withinTolerance cs batches = true) :
    (keysOf (TimeChopper cs batches)).Pairwise (· < ·)
    ∧ (∀ u, u ∈ keysOf (TimeChopper cs batches)
        ↔ u ∈ batches.flatten.map Sample.timestamp)
    ∧ ∀ p ∈ TimeChopper cs batches, p.2 = bucketOf batches.flatten p.1 := by
  have hinv := chopRun_inv cs batches.flatten [] initChopper []
    (chopInv_init cs) (by simpa [withinTolerance] using h)
  rw [List.nil_append, List.nil_append] at hinv
  have hTC : TimeChopper cs batches
      = (chopRun cs initChopper batches.flatten).2
        ++ (chopRun cs initChopper batches.flatten).1.cache := by
    simp only [TimeChopper]
    rw [evictAll_sorted _ hinv.sc]
  have hcross : ∀ u ∈ keysOf (chopRun cs initChopper batches.flatten).2,
      ∀ v ∈ keysOf (chopRun cs initChopper batches.flatten).1.cache, u < v := by
    intro u hu v hv
    cases hwm : (chopRun cs initChopper batches.flatten).1.watermark with
    | none =>
      rw [hinv.wmNone hwm] at hu
      cases hu
    | some w =>
      exact lt_of_le_of_lt (hinv.wmOutLe u hu w hwm) (hinv.wmCacheGt v hv w hwm)
  refine ⟨?_, ?_, ?_⟩
  · rw [hTC, keysOf_append, List.pairwise_append]
    exact ⟨hinv.so, hinv.sc, hcross⟩
  · intro u
    rw [hTC, keysOf_append]
    rw [List.mem_append]
    exact hinv.memEq u
  · intro p hp
    rw [hTC] at hp
    exact hinv.buckets p hp

theorem chopStep_sorted (cs : Nat) (st : ChopperState) (s : Sample)
    (hs : SortedCache st.cache) : SortedCache (chopStep cs st s).1.cache := by
  cases hcl : isClosed st.watermark s.timestamp with
  | true =>
    rw [chopStep_closed cs st s hcl]
    exact hs
  | false =>
    cases hk : hasKey s.timestamp st.cache with
    | true =>
      rw [chopStep_open cs st s hcl hk]
      exact sortedCache_cacheInsert _ _ _ hs
    | false =>
      by_cases hlt : st.cache.length < cs
      · rw [chopStep_room cs st s hcl hk hlt]
        exact sortedCache_cacheInsert _ _ _ hs
      · cases hc : st.cache with
        | nil =>
          have hpop : popMin st.cache = none := by
            rw [hc]
            rfl
          have hstep : chopStep cs st s
              = ({ st with cache := cacheInsert s.timestamp s st.cache }, []) := by
            simp [chopStep, hcl, hk, hlt, hpop]
          rw [hstep]
          exact sortedCache_cacheInsert _ _ _ hs
        | cons phead rest =>
          obtain ⟨t0, b0⟩ := phead
          have hpop : popMin st.cache = some ((t0, b0), rest) := by
            rw [hc]
            exact popMin_sorted _ _ (hc ▸ hs)
          rw [chopStep_evict cs st s t0 b0 rest hcl hk hlt hpop]
          have hsrest : SortedCache rest := by
            have := hc ▸ hs
            simp only [SortedCache, keysOf, List.map_cons,
              List.pairwise_cons] at this
            exact this.2
          exact sortedCache_cacheInsert _ _ _ hsrest

theorem chopStep_bound (cs : Nat) (st : ChopperState) (s : Sample)
    (hcs : 1 ≤ cs) (hs : SortedCache st.cache) (hb : st.cache.length ≤ cs) :
    (chopStep cs st s).1.cache.length ≤ cs := by
  cases hcl : isClosed st.watermark s.timestamp with
  | true =>
    rw [chopStep_closed cs st s hcl]
    exact hb
  | false =>
    cases hk : hasKey s.timestamp st.cache with
    | true =>
      rw [chopStep_open cs st s hcl hk]
      show (cacheInsert s.timestamp s st.cache).length ≤ cs
      rw [length_cacheInsert_of_mem _ _ _ hs ((hasKey_iff _ _).mp hk)]
      exact hb
    | false =>
      have hknot : s.timestamp ∉ keysOf st.cache := by
        intro hmem
        rw [← hasKey_iff] at hmem
        rw [hk] at hmem
        cases hmem
      by_cases hlt : st.cache.length < cs
      · rw [chopStep_room cs st s hcl hk hlt]
        show (cacheInsert s.timestamp s st.cache).length ≤ cs
        rw [length_cacheInsert_of_not_mem _ _ _ hknot]
        omega
      · have hlen : st.cache.length = cs := le_antisymm hb (not_lt.mp hlt)
        cases hc : st.cache with
        | nil =>
          exfalso
          rw [hc] at hlen
          simp at hlen
          omega
        | cons phead rest =>
          obtain ⟨t0, b0⟩ := phead
          have hpop : popMin st.cache = some ((t0, b0), rest) := by
            rw [hc]
            exact popMin_sorted _ _ (hc ▸ hs)
          rw [chopStep_evict cs st s t0 b0 rest hcl hk hlt hpop]
          show (cacheInsert s.timestamp s rest).length ≤ cs
          have htnr : s.timestamp ∉ keysOf rest := by
            intro hm
            exact hknot (by rw [hc, keysOf_cons]; exact List.mem_cons_of_mem _ hm)
          rw [length_cacheInsert_of_not_mem _ _ _ htnr]
          rw [hc] at hlen
          simp at hlen
          omega

theorem chopRun_sorted_bound (cs : Nat) (l : List Sample) :
    ∀ st : ChopperState, SortedCache st.cache →
    SortedCache (chopRun cs st l).1.cache
    ∧ (1 ≤ cs → st.cache.length ≤ cs → (chopRun cs st l).1.cache.length ≤ cs) := by
  induction l with
  | nil =>
    intro st hs
    exact ⟨hs, fun _ hb => hb⟩
  | cons s rest ih =>
    intro st hs
    have hstep := chopStep_sorted cs st s hs
    have hrec := ih (chopStep cs st s).1 hstep
    refine ⟨hrec.1, fun hcs hb => hrec.2 hcs (chopStep_bound cs st s hcs hs hb)⟩

theorem chopStep_watermark (cs : Nat) (st : ChopperState) (s : Sample) (w : Nat)
    (hw : (chopStep cs st s).1.watermark = some w) :
    st.watermark = some w ∨ w ∈ keysOf (chopStep cs st s).2 := by
  cases hcl : isClosed st.watermark s.timestamp with
  | true =>
    rw [chopStep_closed cs st s hcl] at hw ⊢
    exact Or.inl hw
  | false =>
    cases hk : hasKey s.timestamp st.cache with
    | true =>
      rw [chopStep_open cs st s hcl hk] at hw ⊢
      exact Or.inl hw
    | false =>
      by_cases hlt : st.cache.length < cs
      · rw [chopStep_room cs st s hcl hk hlt] at hw ⊢
        exact Or.inl hw
      · cases hpop : popMin st.cache with
        | none =>
          have hstep : chopStep cs st s
              = ({ st with cache := cacheInsert s.timestamp s st.cache }, []) := by
            simp [chopStep, hcl, hk, hlt, hpop]
          rw [hstep] at hw ⊢
          exact Or.inl hw
        | some pr =>
          obtain ⟨⟨t0, b0⟩, rest⟩ := pr
          rw [chopStep_evict cs st s t0 b0 rest hcl hk hlt hpop] at hw ⊢
          right
          have hwt0 : w = t0 := by
            cases hw
            rfl
          subst hwt0
          simp [keysOf]

theorem chopStep_wm_none (cs : Nat) (st : ChopperState) (s : Sample)
    (h : (chopStep cs st s).1.watermark = none) :
    st.watermark = none ∧ (chopStep cs st s).2 = [] := by
  cases hcl : isClosed st.watermark s.timestamp with
  | true =>
    rw [chopStep_closed cs st s hcl] at h ⊢
    exact ⟨h, rfl⟩
  | false =>
    cases hk : hasKey s.timestamp st.cache with
    | true =>
      rw [chopStep_open cs st s hcl hk] at h ⊢
      exact ⟨h, rfl⟩
    | false =>
      by_cases hlt : st.cache.length < cs
      · rw [chopStep_room cs st s hcl hk hlt] at h ⊢
        exact ⟨h, rfl⟩
      · cases hpop : popMin st.cache with
        | none =>
          have hstep : chopStep cs st s
              = ({ st with cache := cacheInsert s.timestamp s st.cache }, []) := by
            simp [chopStep, hcl, hk, hlt, hpop]
          rw [hstep] at h ⊢
          exact ⟨h, rfl⟩
        | some pr =>
          obtain ⟨⟨t0, b0⟩, rest⟩ := pr
          rw [chopStep_evict cs st s t0 b0 rest hcl hk hlt hpop] at h
          cases h

theorem chopRun_watermark (cs : Nat) (l : List Sample) :
    ∀ (st : ChopperState) (w : Nat),
    (chopRun cs st l).1.watermark = some w →
    st.watermark = some w ∨ w ∈ keysOf (chopRun cs st l).2 := by
  induction l with
  | nil =>
    intro st w hw
    exact Or.inl hw
  | cons s rest ih =>
    intro st w hw
    simp only [chopRun] at hw ⊢
    rcases ih (chopStep cs st s).1 w hw with h1 | h2
    · rcases chopStep_watermark cs st s w h1 with h3 | h4
      · exact Or.inl h3
      · right
        rw [keysOf_append]
        exact List.mem_append_left _ h4
    · right
      rw [keysOf_append]
      exact List.mem_append_right _ h2

theorem chopRun_wm_none (cs : Nat) (l : List Sample) :
    ∀ st : ChopperState, (chopRun cs st l).1.watermark = none →
    st.watermark = none ∧ (chopRun cs st l).2 = [] := by
  induction l with
  | nil =>
    intro st h
    exact ⟨h, rfl⟩
  | cons s rest ih =>
    intro st h
    simp only [chopRun] at h ⊢
    have hrec := ih (chopStep cs st s).1 h
    have hstep := chopStep_wm_none cs st s hrec.1
    exact ⟨hstep.1, by rw [hstep.2, hrec.2]; rfl⟩

theorem sortVals_perm_eq {xs ys : List Int} (h : xs.Perm ys) :
    sortVals xs = sortVals ys :=
  List.eq_of_perm_of_sorted
    ((List.perm_insertionSort _ xs).trans (h.trans (List.perm_insertionSort _ ys).symm))
    (List.sorted_insertionSort _ xs) (List.sorted_insertionSort _ ys)

theorem applyAgg_perm (fn : AggFn) {xs ys : List Int} (h : xs.Perm ys) :
    applyAgg fn xs = applyAgg fn ys := by
  cases fn with
  | count => simp [applyAgg, h.length_eq]
  | sum => simp [applyAgg, h.sum_eq]
  | mean => simp [applyAgg, h.length_eq, h.sum_eq]
  | min => simp [applyAgg, sortVals_perm_eq h]
  | max => simp [applyAgg, sortVals_perm_eq h]
  | percentile p => simp [applyAgg, sortVals_perm_eq h, h.length_eq]

theorem aggregateTag_perm (config : AggConfig) {l1 l2 : List Sample}
    (h : l1.Perm l2) : aggregateTag config l1 = aggregateTag config l2 := by
  simp only [aggregateTag]
  apply List.map_congr_left
  intro fieldSpec _
  refine Prod.ext rfl ?_
  apply List.map_congr_left
  intro fn _
  exact applyAgg_perm fn (h.filterMap _)

theorem sortedTags_perm_eq {l1 l2 : List String} (h : l1.Perm l2) :
    l1.dedup.insertionSort (· ≤ ·) = l2.dedup.insertionSort (· ≤ ·) :=
  List.eq_of_perm_of_sorted
    ((List.perm_insertionSort _ _).trans (h.dedup.trans (List.perm_insertionSort _ _).symm))
    (List.sorted_insertionSort _ _) (List.sorted_insertionSort _ _)

/-- The Aggregator is a function of the multiset of samples in a bucket:
reordering the bucket's samples leaves the record bit-identical. -/
theorem aggregateBucket_perm (config : AggConfig) (t : Nat) {b1 b2 : Bucket}
    (h : b1.Perm b2) :
    aggregateBucket config t b1 = aggregateBucket config t b2 := by
  simp only [aggregateBucket, AggregatedRecord.mk.injEq, true_and]
  rw [sortedTags_perm_eq (h.map Sample.tag)]
  apply List.map_congr_left
  intro tag _
  refine Prod.ext rfl ?_
  exact aggregateTag_perm config (h.filter _)

theorem sortVals_singleton (v : Int) : sortVals [v] = [v] := rfl

theorem applyAgg_singleton_isSome (fn : AggFn) (v : Int)
    (hpc : ∀ p, fn = AggFn.percentile p → p ≤ 100) :
    (applyAgg fn [v]).isSome = true := by
  cases fn with
  | count => rfl
  | sum => rfl
  | mean => rfl
  | min => rfl
  | max => rfl
  | percentile p =>
    have hp := hpc p rfl
    have hidx : percentileIdx 1 p = 0 := by
      unfold percentileIdx
      omega
    simp [applyAgg, sortVals_singleton, hidx]

theorem Drain_ne_nil (items : List (Except String AggregatedRecord)) :
    Drain items ≠ [] := by
  match items with
  | [] => simp [Drain]
  | .ok r :: rest => simp [Drain]
  | .error e :: rest => simp [Drain]

theorem Drain_ok_map (rs : List AggregatedRecord) :
    Drain (rs.map Except.ok) = rs.map DrainMsg.record ++ [DrainMsg.endOfStream] := by
  induction rs with
  | nil => rfl
  | cons r rest ih =>
    rw [List.map_cons, Drain, ih]
    rfl

theorem chopper_count (cs : Nat) (batches : List Batch)
    (h : withinTolerance cs batches = true) :
    (TimeChopper cs batches).length
      = (batches.flatten.map Sample.timestamp).dedup.length := by
  obtain ⟨hsort, hmem, -⟩ := chopper_spec cs batches h
  have hnodup : (keysOf (TimeChopper cs batches)).Nodup :=
    hsort.imp (fun hlt => Nat.ne_of_lt hlt)
  have hperm : (keysOf (TimeChopper cs batches)).Perm
      (batches.flatten.map Sample.timestamp).dedup := by
    apply List.perm_of_nodup_nodup_toFinset_eq hnodup (List.nodup_dedup _)
    apply Finset.ext
    intro u
    rw [List.mem_toFinset, List.mem_toFinset, hmem u, List.mem_dedup]
  have hlen : (keysOf (TimeChopper cs batches)).length
      = (TimeChopper cs batches).length := by
    simp [keysOf]
  rw [← hlen, hperm.length_eq]

end YandexTank

namespace TankCore

theorem hasSection_addSection (cfg : ConfigStore) (sec : String) :
    hasSection (addSection cfg sec) sec = true := by
  simp [hasSection, addSection]

theorem hasSection_ensureSection (cfg : ConfigStore) (sec : String) :
    hasSection (ensureSection cfg sec) sec = true := by
  unfold ensureSection
  cases h : hasSection cfg sec with
  | true => simp [h]
  | false => simp [h, hasSection_addSection]

theorem ensureSection_eq_self (cfg : ConfigStore) (sec : String)
    (h : hasSection cfg sec = true) : ensureSection cfg sec = cfg := by
  unfold ensureSection
  simp [h]

theorem flushCount_ensureSection (cfg : ConfigStore) (sec : String) :
    (ensureSection cfg sec).flushCount = cfg.flushCount := by
  unfold ensureSection
  split
  · rfl
  · rfl

theorem getRaw_flush (cfg : ConfigStore) (sec opt : String) :
    getRaw (flush cfg) sec opt = getRaw cfg sec opt := rfl

theorem hasSection_setRaw (cfg : ConfigStore) (sec sec' opt v : String) :
    hasSection (setRaw cfg sec' opt v) sec = hasSection cfg sec := by
  obtain ⟨secs, fc⟩ := cfg
  simp only [hasSection, setRaw]
  induction secs with
  | nil => rfl
  | cons q rest ih =>
    simp only [List.map_cons, List.any_cons, ih]
    congr 1
    by_cases h : q.1 = sec'
    · simp [h]
    · simp [h]

theorem hasSection_flush (cfg : ConfigStore) (sec : String) :
    hasSection (flush cfg) sec = hasSection cfg sec := rfl

theorem find?_map_fst_fixed
    (f : String × List (String × String) → String × List (String × String))
    (hf : ∀ p, (f p).1 = p.1) (l : List (String × List (String × String)))
    (sec : String) :
    (l.map f).find? (fun p => p.1 = sec)
      = (l.find? (fun p => p.1 = sec)).map f := by
  induction l with
  | nil => rfl
  | cons q rest ih =>
    by_cases h : q.1 = sec
    · rw [List.map_cons, List.find?_cons_of_pos _ (by simp [hf, h]),
        List.find?_cons_of_pos _ (by simp [h])]
      rfl
    · rw [List.map_cons, List.find?_cons_of_neg _ (by simp [hf, h]),
        List.find?_cons_of_neg _ (by simp [h]), ih]

theorem getRaw_setRaw_same (cfg : ConfigStore) (sec opt v : String)
    (h : hasSection cfg sec = true) :
    getRaw (setRaw cfg sec opt v) sec opt = some v := by
  obtain ⟨secs, fc⟩ := cfg
  simp only [hasSection, List.any_eq_true, decide_eq_true_eq] at h
  obtain ⟨p0, hp0, hp0sec⟩ := h
  have hsome : (secs.find? (fun p => p.1 = sec)).isSome := by
    rw [List.find?_isSome]
    exact ⟨p0, hp0, by simpa using hp0sec⟩
  obtain ⟨p, hfind⟩ := Option.isSome_iff_exists.mp hsome
  have hpsec : p.1 = sec := by simpa using List.find?_some hfind
  simp only [getRaw, setRaw]
  rw [find?_map_fst_fixed _ (by intro q; split <;> rfl) secs sec, hfind,
    Option.map_some']
  dsimp only
  rw [if_pos hpsec]
  have hfirst : (p.2.filter (fun r => r.1 ≠ opt)).find?
      (fun r => r.1 = opt) = none := by
    rw [List.find?_eq_none]
    intro x hx
    have := List.of_mem_filter hx
    simpa using this
  dsimp only
  rw [List.find?_append, hfirst]
  rw [List.find?_cons_of_pos _ (by simp)]
  rfl

theorem get_plugin_of_type_eq {α : Type} (plugins : List α) (isInst : α → Bool) :
    get_plugin_of_type plugins isInst = (plugins.filter isInst).getLast? := by
  show (if (plugins.filter isInst).length > 0
      then (plugins.filter isInst).getLast? else none)
    = (plugins.filter isInst).getLast?
  split
  · rfl
  · rename_i h
    have hnil : plugins.filter isInst = [] := List.length_eq_zero.mp (by omega)
    rw [hnil]
    rfl

theorem getLast?_cons_of_ne_nil {α : Type} (a : α) (l : List α) (h : l ≠ []) :
    (a :: l).getLast? = l.getLast? := by
  cases l with
  | nil => exact absurd rfl h
  | cons b t => exact List.getLast?_cons_cons

theorem getLast?_filter_eq_some {α : Type} (isInst : α → Bool) (l : List α)
    (q : α) :
    (l.filter isInst).getLast? = some q
      ↔ isInst q = true
        ∧ ∃ l1 l2, l = l1 ++ q :: l2 ∧ ∀ r ∈ l2, isInst r = false := by
  induction l with
  | nil =>
    constructor
    · intro h
      exact absurd h (by simp)
    · rintro ⟨-, l1, l2, heq, -⟩
      have := heq.symm
      simp at this
  | cons a rest ih =>
    cases ha : isInst a with
    | false =>
      rw [List.filter_cons_of_neg (by simp [ha]), ih]
      constructor
      · rintro ⟨hq, l1, l2, rfl, hl2⟩
        exact ⟨hq, a :: l1, l2, rfl, hl2⟩
      · rintro ⟨hq, l1, l2, heq, hl2⟩
        cases l1 with
        | nil =>
          simp only [List.nil_append, List.cons.injEq] at heq
          obtain ⟨rfl, rfl⟩ := heq
          rw [ha] at hq
          cases hq
        | cons b l1' =>
          simp only [List.cons_append, List.cons.injEq] at heq
          obtain ⟨rfl, rfl⟩ := heq
          exact ⟨hq, l1', l2, rfl, hl2⟩
    | true =>
      rw [List.filter_cons_of_pos (by simp [ha])]
      by_cases hfr : rest.filter isInst = []
      · rw [hfr]
        have hall : ∀ r ∈ rest, isInst r = false := by
          intro r hr
          have := List.filter_eq_nil_iff.mp hfr r hr
          simpa using this
        constructor
        · intro hsome
          have hqa : a = q := by simpa using hsome
          subst hqa
          exact ⟨ha, [], rest, rfl, hall⟩
        · rintro ⟨hq, l1, l2, heq, hl2⟩
          cases l1 with
          | nil =>
            simp only [List.nil_append, List.cons.injEq] at heq
            obtain ⟨rfl, rfl⟩ := heq
            rfl
          | cons b l1' =>
            simp only [List.cons_append, List.cons.injEq] at heq
            obtain ⟨rfl, rfl⟩ := heq
            exfalso
            rw [hall q (List.mem_append_right _ (List.mem_cons_self _ _))] at hq
            cases hq
      · rw [getLast?_cons_of_ne_nil _ _ hfr, ih]
        constructor
        · rintro ⟨hq, l1, l2, rfl, hl2⟩
          exact ⟨hq, a :: l1, l2, rfl, hl2⟩
        · rintro ⟨hq, l1, l2, heq, hl2⟩
          cases l1 with
          | nil =>
            simp only [List.nil_append, List.cons.injEq] at heq
            obtain ⟨rfl, rfl⟩ := heq
            exfalso
            refine hfr (List.filter_eq_nil_iff.mpr ?_)
            intro r hr
            simp [hl2 r hr]
          | cons b l1' =>
            simp only [List.cons_append, List.cons.injEq] at heq
            obtain ⟨rfl, rfl⟩ := heq
            exact ⟨hq, l1', l2, rfl, hl2⟩

end TankCore

namespace YandexTank

/-- C1: for every delivery of batches (equivalently, every permutation of an
in-order delivery) whose timestamp displacement stays within the reorder
tolerance of `cacheSize - 1` distinct timestamps, the number of
AggregatedRecords emitted by the composed Poller→Windower→Aggregator→Drain
pipeline equals the number of distinct timestamps present across all input
samples; the record messages observed on the Drain's queue have that same
count. -/
theorem exactly_once_flush_count (config : AggConfig) (cs : Nat)
    (source : List (Option Batch))
    (h : withinTolerance cs (DataPoller source) = true) :
    (pipelineRun config cs source).length
      = ((DataPoller source).flatten.map Sample.timestamp).dedup.length
    ∧ ((Drain ((pipelineRun config cs source).map Except.ok)).filter
          DrainMsg.isRecord).length
      = ((DataPoller source).flatten.map Sample.timestamp).dedup.length := by
  have hlen : (pipelineRun config cs source).length
      = ((DataPoller source).flatten.map Sample.timestamp).dedup.length := by
    rw [pipelineRun, Aggregator, List.length_map]
    exact chopper_count cs (DataPoller source) h
  refine ⟨hlen, ?_⟩
  rw [Drain_ok_map, List.filter_append]
  have h1 : ((pipelineRun config cs source).map DrainMsg.record).filter
      DrainMsg.isRecord = (pipelineRun config cs source).map DrainMsg.record := by
    rw [List.filter_eq_self]
    intro m hm
    obtain ⟨r, -, rfl⟩ := List.mem_map.mp hm
    rfl
  rw [h1]
  simp [DrainMsg.isRecord, hlen]

/-- C1 witness: batches for timestamps 100..104 with the two adjacent
batches for 102 and 103 swapped, cache size 3, a "not ready" marker
interleaved — still five records, one per distinct timestamp. -/
theorem exactly_once_flush_count_witness :
    withinTolerance 3 (DataPoller
        [some [⟨"t", 100, [("lat", 1)]⟩], some [⟨"t", 101, [("lat", 2)]⟩],
         some [⟨"t", 103, [("lat", 4)]⟩], none,
         some [⟨"t", 102, [("lat", 3)]⟩], some [⟨"t", 104, [("lat", 5)]⟩]]) = true
    ∧ (pipelineRun [("lat", [AggFn.count])] 3
        [some [⟨"t", 100, [("lat", 1)]⟩], some [⟨"t", 101, [("lat", 2)]⟩],
         some [⟨"t", 103, [("lat", 4)]⟩], none,
         some [⟨"t", 102, [("lat", 3)]⟩], some [⟨"t", 104, [("lat", 5)]⟩]]).length
      = ((DataPoller
        [some [⟨"t", 100, [("lat", 1)]⟩], some [⟨"t", 101, [("lat", 2)]⟩],
         some [⟨"t", 103, [("lat", 4)]⟩], none,
         some [⟨"t", 102, [("lat", 3)]⟩], some [⟨"t", 104, [("lat", 5)]⟩]]).flatten.map
            Sample.timestamp).dedup.length :=
  ⟨by decide,
    (exactly_once_flush_count [("lat", [AggFn.count])] 3
      [some [⟨"t", 100, [("lat", 1)]⟩], some [⟨"t", 101, [("lat", 2)]⟩],
       some [⟨"t", 103, [("lat", 4)]⟩], none,
       some [⟨"t", 102, [("lat", 3)]⟩], some [⟨"t", 104, [("lat", 5)]⟩]]
      (by decide)).1⟩

/-- C2: within the reorder tolerance the Windower's emitted timestamps are
strictly ascending with no duplicates and no gaps relative to the set of
input timestamps, each emitted bucket holds exactly its timestamp's samples
(none dropped), and the Aggregator forwards the timestamps unchanged, so the
pipeline's record timestamps coincide with the Windower's. -/
theorem windower_ordering_no_gaps (cs : Nat) (batches : List Batch)
    (h : withinTolerance cs batches = true) :
    List.Pairwise (· < ·) (keysOf (TimeChopper cs batches))
    ∧ (keysOf (TimeChopper cs batches)).Nodup
    ∧ (∀ u, u ∈ keysOf (TimeChopper cs batches)
        ↔ u ∈ batches.flatten.map Sample.timestamp)
    ∧ (∀ p ∈ TimeChopper cs batches, p.2 = bucketOf batches.flatten p.1)
    ∧ ∀ config : AggConfig,
        (Aggregator config (TimeChopper cs batches)).map AggregatedRecord.timestamp
          = keysOf (TimeChopper cs batches) := by
  obtain ⟨hsort, hmem, hbuck⟩ := chopper_spec cs batches h
  refine ⟨hsort, hsort.imp (fun hlt => Nat.ne_of_lt hlt), hmem, hbuck, ?_⟩
  intro config
  rw [Aggregator, List.map_map, keysOf]
  rfl

/-- C2 witness: the swapped-order scenario with cache size 3 emits exactly
the timestamps 100,101,102,103,104 in ascending order. -/
theorem windower_ordering_no_gaps_witness :
    withinTolerance 3
        [[⟨"t", 100, []⟩], [⟨"t", 103, []⟩], [⟨"t", 102, []⟩],
         [⟨"t", 101, []⟩], [⟨"t", 104, []⟩]] = true
    ∧ List.Pairwise (· < ·) (keysOf (TimeChopper 3
        [[⟨"t", 100, []⟩], [⟨"t", 103, []⟩], [⟨"t", 102, []⟩],
         [⟨"t", 101, []⟩], [⟨"t", 104, []⟩]])) :=
  ⟨by decide,
    (windower_ordering_no_gaps 3
      [[⟨"t", 100, []⟩], [⟨"t", 103, []⟩], [⟨"t", 102, []⟩],
       [⟨"t", 101, []⟩], [⟨"t", 104, []⟩]] (by decide)).1⟩

/-- C3: the open-bucket cache never exceeds `cacheSize` buckets on any input,
and when a sample arrives for a timestamp with no open bucket while the cache
is at capacity, the single smallest-timestamp bucket is evicted and emitted
downstream, with the new sample inserted only into the remaining cache. -/
theorem cache_bound_and_eviction (cs : Nat) (hcs : 1 ≤ cs)
    (samples : List Sample) :
    (chopRun cs initChopper samples).1.cache.length ≤ cs
    ∧ ∀ s : Sample,
      isClosed (chopRun cs initChopper samples).1.watermark s.timestamp = false →
      hasKey s.timestamp (chopRun cs initChopper samples).1.cache = false →
      (chopRun cs initChopper samples).1.cache.length = cs →
      ∃ t0 b0 rest,
        (chopRun cs initChopper samples).1.cache = (t0, b0) :: rest
        ∧ (∀ u ∈ keysOf ((chopRun cs initChopper samples).1.cache), t0 ≤ u)
        ∧ chopStep cs (chopRun cs initChopper samples).1 s
            = (⟨cacheInsert s.timestamp s rest, some t0⟩, [(t0, b0)]) := by
  have hsb := chopRun_sorted_bound cs samples initChopper
    (by simp [initChopper, SortedCache, keysOf])
  refine ⟨hsb.2 hcs (by simp [initChopper]), ?_⟩
  intro s hcl hk hfull
  have hsorted := hsb.1
  cases hc : (chopRun cs initChopper samples).1.cache with
  | nil =>
    exfalso
    rw [hc] at hfull
    simp at hfull
    omega
  | cons phead rest =>
    obtain ⟨t0, b0⟩ := phead
    refine ⟨t0, b0, rest, rfl, ?_, ?_⟩
    · intro u hu
      rw [keysOf_cons] at hu
      have hsc := hc ▸ hsorted
      simp only [SortedCache, keysOf, List.map_cons, List.pairwise_cons] at hsc
      rcases List.mem_cons.mp hu with rfl | hu2
      · exact le_refl _
      · exact le_of_lt (hsc.1 u hu2)
    · have hpop : popMin (chopRun cs initChopper samples).1.cache
          = some ((t0, b0), rest) := by
        rw [hc]
        exact popMin_sorted _ _ (hc ▸ hsorted)
      exact chopStep_evict cs _ s t0 b0 rest hcl hk (by omega) hpop

/-- C3 witness: with cache size 1, after sample at timestamp 10 the cache is
at its bound, and a sample at timestamp 11 evicts bucket 10 before its own
insertion. -/
theorem cache_bound_and_eviction_witness :
    1 ≤ 1
    ∧ (chopRun 1 initChopper [⟨"t", 10, []⟩]).1.cache.length ≤ 1
    ∧ isClosed (chopRun 1 initChopper [⟨"t", 10, []⟩]).1.watermark 11 = false
    ∧ hasKey 11 (chopRun 1 initChopper [⟨"t", 10, []⟩]).1.cache = false
    ∧ (chopRun 1 initChopper [⟨"t", 10, []⟩]).1.cache.length = 1
    ∧ ∃ t0 b0 rest,
        (chopRun 1 initChopper [⟨"t", 10, []⟩]).1.cache = (t0, b0) :: rest
        ∧ (∀ u ∈ keysOf ((chopRun 1 initChopper [⟨"t", 10, []⟩]).1.cache), t0 ≤ u)
        ∧ chopStep 1 (chopRun 1 initChopper [⟨"t", 10, []⟩]).1 ⟨"t", 11, []⟩
            = (⟨cacheInsert 11 ⟨"t", 11, []⟩ rest, some t0⟩, [(t0, b0)]) := by
  have h := cache_bound_and_eviction 1 (by decide) [⟨"t", 10, []⟩]
  exact ⟨by decide, h.1, by decide, by decide, by decide,
    h.2 ⟨"t", 11, []⟩ (by decide) (by decide) (by decide)⟩

/-- C4: on upstream exhaustion the Windower flushes: the emitted stream is
the run emissions followed by the eviction of every remaining open bucket,
those final evictions are a permutation of the open-bucket cache (nothing
discarded), they come out in strictly ascending timestamp order, and every
still-open bucket appears in the final output. -/
theorem final_flush_complete (cs : Nat) (batches : List Batch) :
    TimeChopper cs batches
      = (chopRun cs initChopper batches.flatten).2
        ++ evictAll (chopRun cs initChopper batches.flatten).1.cache
    ∧ (evictAll (chopRun cs initChopper batches.flatten).1.cache).Perm
        (chopRun cs initChopper batches.flatten).1.cache
    ∧ List.Pairwise (· < ·)
        (keysOf (evictAll (chopRun cs initChopper batches.flatten).1.cache))
    ∧ ∀ p ∈ (chopRun cs initChopper batches.flatten).1.cache,
        p ∈ TimeChopper cs batches := by
  have hsorted := (chopRun_sorted_bound cs batches.flatten initChopper
    (by simp [initChopper, SortedCache, keysOf])).1
  have hAll : evictAll (chopRun cs initChopper batches.flatten).1.cache
      = (chopRun cs initChopper batches.flatten).1.cache :=
    evictAll_sorted _ hsorted
  refine ⟨rfl, evictAll_perm _, ?_, ?_⟩
  · rw [hAll]
    exact hsorted
  · intro p hp
    show p ∈ (chopRun cs initChopper batches.flatten).2
      ++ evictAll (chopRun cs initChopper batches.flatten).1.cache
    rw [hAll]
    exact List.mem_append_right _ hp

/-- C5: absent ("not ready") markers are invisible to the pipeline's output:
any source whose present batches are exactly `batches` in order produces the
very same records as the marker-free delivery of `batches`; the Poller
forwards exactly the batches, and a trailing absent marker never extends the
produced sequence. -/
theorem poller_absent_markers_invisible (config : AggConfig) (cs : Nat)
    (source : List (Option Batch)) (batches : List Batch)
    (h : source.filterMap id = batches) :
    pipelineRun config cs source = pipelineRun config cs (batches.map some)
    ∧ DataPoller source = batches
    ∧ ∀ src2 : List (Option Batch), DataPoller (src2 ++ [none]) = DataPoller src2 := by
  have hdp : DataPoller source = batches := h
  have hdp2 : DataPoller (batches.map some) = batches := by
    rw [DataPoller, List.filterMap_map]
    simp
  refine ⟨?_, hdp, ?_⟩
  · rw [pipelineRun, pipelineRun, hdp, hdp2]
  · intro src2
    rw [DataPoller, DataPoller, List.filterMap_append]
    simp

/-- C5 witness: a source with two interleaved markers produces the same
records as the plain two-batch delivery. -/
theorem poller_absent_markers_invisible_witness :
    ([none, some [⟨"t", 5, []⟩], none, some [⟨"t", 6, []⟩]].filterMap
        (id : Option Batch → Option Batch) = [[⟨"t", 5, []⟩], [⟨"t", 6, []⟩]])
    ∧ pipelineRun [] 3 [none, some [⟨"t", 5, []⟩], none, some [⟨"t", 6, []⟩]]
      = pipelineRun [] 3 ([[⟨"t", 5, []⟩], [⟨"t", 6, []⟩]].map some) :=
  ⟨by decide,
    (poller_absent_markers_invisible [] 3
      [none, some [⟨"t", 5, []⟩], none, some [⟨"t", 6, []⟩]]
      [[⟨"t", 5, []⟩], [⟨"t", 6, []⟩]] (by decide)).1⟩

/-- C6: a sample for an already-closed timestamp — smaller than every evicted
timestamp, hence smaller than the smallest ever evicted — is dropped: the
Windower's state is unchanged, nothing is emitted for it, the closed bucket
is not re-opened, and the subsequent run is exactly as if the late sample had
never arrived (so no closed timestamp is ever emitted a second time). -/
theorem late_sample_dropped (cs : Nat) (samples : List Sample) (s : Sample)
    (more : List Sample)
    (hne : (chopRun cs initChopper samples).2 ≠ [])
    (hlate : ∀ e ∈ keysOf (chopRun cs initChopper samples).2, s.timestamp < e) :
    chopStep cs (chopRun cs initChopper samples).1 s
        = ((chopRun cs initChopper samples).1, [])
    ∧ chopRun cs (chopRun cs initChopper samples).1 (s :: more)
        = chopRun cs (chopRun cs initChopper samples).1 more := by
  have hwm : ∃ w, (chopRun cs initChopper samples).1.watermark = some w := by
    cases hw : (chopRun cs initChopper samples).1.watermark with
    | none =>
      exfalso
      exact hne (chopRun_wm_none cs samples initChopper hw).2
    | some w => exact ⟨w, rfl⟩
  obtain ⟨w, hw⟩ := hwm
  have hwmem : w ∈ keysOf (chopRun cs initChopper samples).2 := by
    rcases chopRun_watermark cs samples initChopper w hw with h1 | h2
    · cases h1
    · exact h2
  have hcl : isClosed (chopRun cs initChopper samples).1.watermark s.timestamp
      = true := by
    rw [isClosed_true_iff]
    exact ⟨w, hw, le_of_lt (hlate w hwmem)⟩
  have hstep := chopStep_closed cs _ s hcl
  refine ⟨hstep, ?_⟩
  simp [chopRun, hstep]

/-- C6 witness: with cache size 1, samples at 10 then 11 evict bucket 10;
a late sample at timestamp 9 is dropped without changing state or output. -/
theorem late_sample_dropped_witness :
    ((chopRun 1 initChopper [⟨"t", 10, []⟩, ⟨"t", 11, []⟩]).2 ≠ [])
    ∧ (∀ e ∈ keysOf (chopRun 1 initChopper [⟨"t", 10, []⟩, ⟨"t", 11, []⟩]).2,
        (9 : Nat) < e)
    ∧ chopStep 1 (chopRun 1 initChopper [⟨"t", 10, []⟩, ⟨"t", 11, []⟩]).1 ⟨"t", 9, []⟩
        = ((chopRun 1 initChopper [⟨"t", 10, []⟩, ⟨"t", 11, []⟩]).1, []) := by
  have h := late_sample_dropped 1 [⟨"t", 10, []⟩, ⟨"t", 11, []⟩] ⟨"t", 9, []⟩ []
    (by decide) (by decide)
  exact ⟨by decide, by decide, h.1⟩

/-- C7: the Aggregator is deterministic on the multiset of a bucket's
samples — two buckets holding the same samples in any order produce
bit-identical AggregatedRecords — and every aggregate of a one-sample bucket
is defined (no failure), for any aggregate function whose percentile argument
is at most 100. -/
theorem aggregator_deterministic (config : AggConfig) (t : Nat)
    (b1 b2 : Bucket) (hp : b1.Perm b2) (s : Sample) (fname : String)
    (fn : AggFn) (v : Int) (hf : s.field fname = some v)
    (hpc : ∀ p, fn = AggFn.percentile p → p ≤ 100) :
    aggregateBucket config t b1 = aggregateBucket config t b2
    ∧ (applyAgg fn ([s].filterMap (fun x => x.field fname))).isSome = true := by
  refine ⟨aggregateBucket_perm config t hp, ?_⟩
  have : [s].filterMap (fun x => x.field fname) = [v] := by
    simp [List.filterMap, hf]
  rw [this]
  exact applyAgg_singleton_isSome fn v hpc

/-- C7 witness: two orderings of the same two samples aggregate identically,
and the median of a one-sample bucket is defined. -/
theorem aggregator_deterministic_witness :
    ([⟨"a", 7, [("lat", 1)]⟩, ⟨"b", 7, [("lat", 2)]⟩] : Bucket).Perm
        [⟨"b", 7, [("lat", 2)]⟩, ⟨"a", 7, [("lat", 1)]⟩]
    ∧ (⟨"a", 7, [("lat", 1)]⟩ : Sample).field "lat" = some 1
    ∧ aggregateBucket [("lat", [AggFn.percentile 50])] 7
        [⟨"a", 7, [("lat", 1)]⟩, ⟨"b", 7, [("lat", 2)]⟩]
      = aggregateBucket [("lat", [AggFn.percentile 50])] 7
        [⟨"b", 7, [("lat", 2)]⟩, ⟨"a", 7, [("lat", 1)]⟩] := by
  have h := aggregator_deterministic [("lat", [AggFn.percentile 50])] 7
    [⟨"a", 7, [("lat", 1)]⟩, ⟨"b", 7, [("lat", 2)]⟩]
    [⟨"b", 7, [("lat", 2)]⟩, ⟨"a", 7, [("lat", 1)]⟩]
    (by decide) ⟨"a", 7, [("lat", 1)]⟩ "lat" (AggFn.percentile 50) 1
    (by decide) (by intro p hp; cases hp; decide)
  exact ⟨by decide, by decide, h.1⟩

/-- C8: the Drain always terminates the queue with an explicit signal — an
end-of-stream sentinel or a surfaced failure — and the sentinel appears
exactly when every pipeline step succeeded, so a consumer can always
distinguish clean end of stream from a pipeline failure. -/
theorem drain_surfaces_failures (items : List (Except String AggregatedRecord)) :
    ((Drain items).getLast? = some DrainMsg.endOfStream
      ∨ ∃ e, (Drain items).getLast? = some (DrainMsg.failure e))
    ∧ ((Drain items).getLast? = some DrainMsg.endOfStream
        ↔ ∀ x ∈ items, x.isOk = true) := by
  induction items with
  | nil =>
    refine ⟨Or.inl rfl, ?_⟩
    simp [Drain]
  | cons x rest ih =>
    cases x with
    | ok r =>
      have hne := Drain_ne_nil rest
      have hcons : Drain (Except.ok r :: rest)
          = DrainMsg.record r :: Drain rest := rfl
      rw [hcons, TankCore.getLast?_cons_of_ne_nil _ _ hne]
      refine ⟨ih.1, ?_⟩
      rw [ih.2]
      constructor
      · intro hall y hy
        rcases List.mem_cons.mp hy with rfl | hy2
        · rfl
        · exact hall y hy2
      · intro hall y hy
        exact hall y (List.mem_cons_of_mem _ hy)
    | error e =>
      have hcons : Drain (Except.error e :: rest) = [DrainMsg.failure e] := rfl
      rw [hcons]
      refine ⟨Or.inr ⟨e, rfl⟩, ?_⟩
      constructor
      · intro hcontra
        exact absurd hcontra (by simp)
      · intro hall
        have := hall (Except.error e) (List.mem_cons_self _ _)
        simp [Except.isOk, Except.toBool] at this

end YandexTank

namespace TankCore

/-- C9: get_plugin_of_type raises KeyError exactly when no loaded plugin
matches the isinstance test, and otherwise returns the LAST matching plugin
in registration order: its result is `some q` precisely when `q` matches and
every plugin registered after it does not. -/
theorem get_plugin_of_type_spec {α : Type} (plugins : List α)
    (isInst : α → Bool) :
    (get_plugin_of_type plugins isInst = none
      ↔ ∀ p ∈ plugins, isInst p = false)
    ∧ ∀ q, get_plugin_of_type plugins isInst = some q
      ↔ isInst q = true
        ∧ ∃ l1 l2, plugins = l1 ++ q :: l2 ∧ ∀ r ∈ l2, isInst r = false := by
  rw [get_plugin_of_type_eq]
  constructor
  · rw [List.getLast?_eq_none_iff, List.filter_eq_nil_iff]
    constructor
    · intro hall p hp
      have := hall p hp
      simpa using this
    · intro hall p hp
      simp [hall p hp]
  · intro q
    exact getLast?_filter_eq_some isInst plugins q

theorem expandShell_not_quoted (shell : String → ShellResult) (value : String)
    (h : shellQuoted value = false) :
    expandShell shell value = Except.ok value := by
  rw [expandShell, if_neg]
  simp [h]

/-- C10 counterexample: the claim that an absent option's supplied default is
"returned stripped of whitespace" fails for a backquoted default — the
program shell-expands it (tankcore.py lines 368–374) and returns the
subprocess's stdout instead.  Here the subprocess prints "expanded", so the
result differs from the stripped default. -/
theorem get_option_backquote_counterexample :
    (get_option (fun _ => ⟨0, "expanded", ""⟩) ⟨[], 0⟩ "tank" "cmd"
        (some "`date`")).1 ≠ Except.ok (pyStrip "`date`") := by
  have h0 : (get_option (fun _ => ⟨0, "expanded", ""⟩) ⟨[], 0⟩ "tank" "cmd"
      (some "`date`")).1 = Except.ok "expanded" := by rfl
  intro h
  rw [h0] at h
  have h2 : ("expanded" : String) = pyStrip "`date`" := Except.ok.inj h
  exact absurd h2 (by decide)

/-- C10 as amended: get_option is a mutating read.  When the option is
absent and a default is supplied, the default is stored raw, the store is
flushed once, and the shell-expanded trimmed default is the result — which
is the default stripped of whitespace whenever it is not wrapped in
backquotes — and a subsequent get_option without a default yields the same
result from the stored value; when the option is absent and no default is
supplied, NoOptionError is raised, no option value is stored, and nothing is
flushed. -/
theorem get_option_mutating_read (shell : String → ShellResult)
    (cfg : ConfigStore) (sec opt d : String)
    (habs : getRaw (ensureSection cfg sec) sec opt = none) :
    (get_option shell cfg sec opt (some d)).1 = expandShell shell (pyStrip d)
    ∧ (shellQuoted (pyStrip d) = false →
        (get_option shell cfg sec opt (some d)).1 = Except.ok (pyStrip d))
    ∧ getRaw (get_option shell cfg sec opt (some d)).2 sec opt = some d
    ∧ (get_option shell (get_option shell cfg sec opt (some d)).2 sec opt none).1
        = expandShell shell (pyStrip d)
    ∧ (get_option shell cfg sec opt (some d)).2.flushCount = cfg.flushCount + 1
    ∧ (get_option shell cfg sec opt none).1 = Except.error "NoOptionError"
    ∧ getRaw (get_option shell cfg sec opt none).2 sec opt = none
    ∧ (get_option shell cfg sec opt none).2.flushCount = cfg.flushCount := by
  have hsec : hasSection (ensureSection cfg sec) sec = true :=
    hasSection_ensureSection cfg sec
  have hstore : getRaw (setRaw (ensureSection cfg sec) sec opt d) sec opt
      = some d := getRaw_setRaw_same _ sec opt d hsec
  have hsome : get_option shell cfg sec opt (some d)
      = (expandShell shell (pyStrip d),
          flush (setRaw (ensureSection cfg sec) sec opt d)) := by
    rw [get_option]
    simp only [habs]
  have hnone : get_option shell cfg sec opt none
      = (Except.error "NoOptionError", ensureSection cfg sec) := by
    rw [get_option]
    simp only [habs]
  refine ⟨by rw [hsome], ?_, ?_, ?_, ?_, by rw [hnone], ?_, ?_⟩
  · intro hq
    rw [hsome]
    exact expandShell_not_quoted shell (pyStrip d) hq
  · rw [hsome]
    rw [show (expandShell shell (pyStrip d),
        flush (setRaw (ensureSection cfg sec) sec opt d)).2
      = flush (setRaw (ensureSection cfg sec) sec opt d) from rfl]
    rw [getRaw_flush]
    exact hstore
  · rw [hsome]
    have hsec2 : hasSection
        (flush (setRaw (ensureSection cfg sec) sec opt d)) sec = true := by
      rw [hasSection_flush, hasSection_setRaw]
      exact hsec
    have hens2 : ensureSection
        (flush (setRaw (ensureSection cfg sec) sec opt d)) sec
        = flush (setRaw (ensureSection cfg sec) sec opt d) :=
      ensureSection_eq_self _ _ hsec2
    rw [get_option]
    simp only [hens2, getRaw_flush, hstore]
  · rw [hsome]
    show (flush (setRaw (ensureSection cfg sec) sec opt d)).flushCount
      = cfg.flushCount + 1
    rw [show (flush (setRaw (ensureSection cfg sec) sec opt d)).flushCount
      = (setRaw (ensureSection cfg sec) sec opt d).flushCount + 1 from rfl]
    rw [show (setRaw (ensureSection cfg sec) sec opt d).flushCount
      = (ensureSection cfg sec).flushCount from rfl]
    rw [flushCount_ensureSection]
  · rw [hnone]
    exact habs
  · rw [hnone]
    exact flushCount_ensureSection cfg sec

/-- C10 witness: an absent option with the plain default " x " is stored
raw, returned trimmed, and a read without a default raises NoOptionError. -/
theorem get_option_mutating_read_witness :
    getRaw (ensureSection ⟨[], 0⟩ "tank") "tank" "affinity" = none
    ∧ shellQuoted (pyStrip " x ") = false
    ∧ (get_option (fun _ => ⟨1, "", "boom"⟩) ⟨[], 0⟩ "tank" "affinity"
        (some " x ")).1 = Except.ok (pyStrip " x ")
    ∧ getRaw (get_option (fun _ => ⟨1, "", "boom"⟩) ⟨[], 0⟩ "tank" "affinity"
        (some " x ")).2 "tank" "affinity" = some " x "
    ∧ (get_option (fun _ => ⟨1, "", "boom"⟩) ⟨[], 0⟩ "tank" "affinity" none).1
        = Except.error "NoOptionError" := by
  have h := get_option_mutating_read (fun _ => ⟨1, "", "boom"⟩) ⟨[], 0⟩
    "tank" "affinity" " x " (by decide)
  exact ⟨by decide, by decide, h.2.1 (by decide), h.2.2.1, h.2.2.2.2.2.1⟩

end TankCore
